import Mathlib

/-!
Shallow embedding of the asynchronous-collection combinators of rsvp.js:
`map` (src/lib/rsvp/map.js), `filter` with its `FilterResult` markers
(src/lib/rsvp/filter.js), `hash` (src/unnamed/part_000) and `rethrow`
(src/lib/rsvp/rethrow.js).

A settled future is embedded as `Except ε α`: `.ok v` is fulfilment with `v`,
`.error e` is rejection with reason `e`.  The combinators' bodies are pure
data flow once the settlement outcomes of their inputs are fixed, so each
combinator becomes a function on outcomes; where the original is sensitive to
the order in which inputs settle (`hash`), the settlement order is an explicit
parameter of the run.
-/

deriving instance DecidableEq for Except

namespace RSVP

/-- The possible results of one call of the user's `filterFn`, as the code in
`filter.js` discriminates them: a plain (non-thenable) value, of which only the
truthiness matters, or a thenable (`typeof r === 'object' && isFunction(r.then)`),
whose settlement outcome carries the truthiness of its fulfilment value. -/
inductive PredRes (ε : Type) where
  | plain : Bool → PredRes ε
  | promise : Except ε Bool → PredRes ε
deriving DecidableEq

/-- An element of the working array `filteredResults` as built in one pass of
`filter` (filter.js lines 103-117): either a raw kept value, or the promise
produced by `FilterResult.fromFilterPromise` (lines 134-138), which settles to
a `FilterResult` carrying the original value and the predicate outcome's
truthiness. -/
inductive PElem (α ε : Type) where
  | item : α → PElem α ε
  | pending : α → Except ε Bool → PElem α ε
deriving DecidableEq

/-- An element of `results` as the recursive pass sees it after `all` has
resolved the working array: a raw value, or a settled `FilterResult`
(filter.js lines 129-132) with its `value` and `returnedSuccessfully` flag. -/
inductive RElem (α : Type) where
  | item : α → RElem α
  | marker : α → Bool → RElem α
deriving DecidableEq

/-- Modelled from the spec: the external join primitive `all` (spec sections
2 and 6), imported by map.js and filter.js from "./all" but not part of this
source snapshot.  Given the settlement outcomes of an ordered sequence of
inputs it fulfills with the ordered list of values, or rejects with the
reason of the first failing input. -/
def allJoin {ε α : Type} : List (Except ε α) → Except ε (List α)
  | [] => .ok []
  | .error e :: _ => .error e
  | .ok v :: rest => (allJoin rest).map (v :: ·)

/-- The join that the recursive call `filter(filteredResults, ...)` performs on
the working array: raw values pass through, a `FilterResult` promise resolves
to its settled marker, and the first rejected predicate promise rejects the
whole join with its reason. -/
def joinElems {α ε : Type} : List (PElem α ε) → Except ε (List (RElem α))
  | [] => .ok []
  | .item v :: rest => (joinElems rest).map (RElem.item v :: ·)
  | .pending v (.ok b) :: rest => (joinElems rest).map (RElem.marker v b :: ·)
  | .pending _ (.error e) :: _ => .error e

/-- One pass of the loop in `filter` (filter.js lines 103-117) over the joined
results.  Returns the `filteredResults` array built by the pass, the
`hasPromises` flag, and the list of arguments on which `filterFn` was invoked
during the pass, in invocation order. -/
def filterPass {α ε : Type} (pred : α → PredRes ε) :
    List (RElem α) → List (PElem α ε) × Bool × List α
  | [] => ([], false, [])
  | .marker v b :: rest =>
      let r := filterPass pred rest
      ((if b then PElem.item v :: r.1 else r.1), r.2.1, r.2.2)
  | .item v :: rest =>
      let r := filterPass pred rest
      match pred v with
      | .plain true => (PElem.item v :: r.1, r.2.1, v :: r.2.2)
      | .plain false => (r.1, r.2.1, v :: r.2.2)
      | .promise o => (PElem.pending v o :: r.1, true, v :: r.2.2)

/-- The recursion of `filter` (filter.js lines 119-121): join the working
array, run a pass, and if the pass created any predicate promises re-run the
whole algorithm on the pass output.  `fuel` bounds the recursion depth so the
function is total; `none` means the bound was hit.  On success it returns the
final working array, the concatenated predicate invocation log of all passes,
and the number of passes executed (so passes - 1 recursive re-invocations). -/
def filterLoop {α ε : Type} (pred : α → PredRes ε) :
    Nat → List (PElem α ε) → Option (Except ε (List (PElem α ε) × List α × Nat))
  | 0, _ => none
  | fuel + 1, es =>
    match joinElems es with
    | .error e => some (.error e)
    | .ok rs =>
      let r := filterPass pred rs
      if r.2.1 then
        match filterLoop pred fuel r.1 with
        | none => none
        | some (.error e) => some (.error e)
        | some (.ok fin) => some (.ok (fin.1, r.2.2 ++ fin.2.1, fin.2.2 + 1))
      else
        some (.ok (r.1, r.2.2, 1))

/-- The values of the raw (non-marker) elements of a working array; on the
final pass every element is raw, so this is the fulfilment value of the
promise `filter` returns. -/
def itemValues {α ε : Type} (es : List (PElem α ε)) : List α :=
  es.filterMap fun e =>
    match e with
    | .item v => some v
    | .pending _ _ => none

/-- Whether a working-array element is a raw kept value rather than a
`FilterResult` marker promise. -/
def isRawItem {α ε : Type} : PElem α ε → Bool
  | .item _ => true
  | .pending _ _ => false

/-- The full `filter` data flow (filter.js line 95 onward): join the input
outcomes with `all`, then run the pass/recurse loop on the resolved values. -/
def rsvpFilter {α ε : Type} (xs : List (Except ε α)) (pred : α → PredRes ε)
    (fuel : Nat) : Option (Except ε (List (PElem α ε) × List α × Nat)) :=
  match allJoin xs with
  | .error e => some (.error e)
  | .ok vs => filterLoop pred fuel (vs.map PElem.item)

/-- The loop in the `then` callback of `map` (map.js lines 77-79): push
`mapFn(results[i])` for each `i` in ascending order.  A transform that throws
is embedded as returning `.error`; the throw aborts the loop and becomes the
rejection of the returned promise.  Also returns the list of arguments the
transform was applied to, in application order. -/
def mapBody {α β ε : Type} (f : α → Except ε β) :
    List α → Except ε (List β) × List α
  | [] => (.ok [], [])
  | x :: rest =>
    match f x with
    | .error e => (.error e, [x])
    | .ok y =>
      let r := mapBody f rest
      (r.1.map (y :: ·), x :: r.2)

/-- The full `map` data flow (map.js lines 71-82): join the input outcomes
with `all`, then run the transform loop; a join rejection passes through
unchanged because the `then` callback never runs on rejection. -/
def rsvpMap {α β ε : Type} (xs : List (Except ε α)) (f : α → Except ε β) :
    Except ε (List β) × List α :=
  match allJoin xs with
  | .error e => (.error e, [])
  | .ok vs => mapBody f vs

/-- The first positional argument of `map`/`filter` as the dynamic check
`isArray` sees it: either an array of inputs or some non-array value. -/
inductive JSArr (ε α : Type) where
  | arr : List (Except ε α) → JSArr ε α
  | notArray : JSArr ε α

/-- The second positional argument of `map`/`filter` as the dynamic check
`isFunction` sees it: either a callable or some non-callable value. -/
inductive JSFn (α β : Type) where
  | fn : (α → β) → JSFn α β
  | notFunction : JSFn α β

/-- `map` with its synchronous argument validation (map.js lines 63-69):
a `TypeError` thrown before any future exists is the `.error` of the outer
`Except`; the `.ok` branch carries the returned future's data flow. -/
def mapJS {α β ε : Type} (p : JSArr ε α) (f : JSFn α (Except ε β)) :
    Except String (Except ε (List β) × List α) :=
  match p with
  | .notArray => .error "You must pass an array to map."
  | .arr xs =>
    match f with
    | .notFunction => .error "You must pass a function to map's second argument."
    | .fn g => .ok (rsvpMap xs g)

/-- `filter` with its synchronous argument validation (filter.js lines
87-93), wrapping the filter data flow the same way. -/
def filterJS {α ε : Type} (p : JSArr ε α) (f : JSFn α (PredRes ε)) (fuel : Nat) :
    Except String (Option (Except ε (List (PElem α ε) × List α × Nat))) :=
  match p with
  | .notArray => .error "You must pass an array to filter."
  | .arr xs =>
    match f with
    | .notFunction => .error "You must pass a function to filter's second argument."
    | .fn pred => .ok (rsvpFilter xs pred fuel)

/-- An entry of the object handed to `hash`, as the check on line 97 of the
hash source (`promise && isFunction(promise.then)`) discriminates it:
`truthy` is the entry's JavaScript truthiness, `thenOutcome` is `some o`
when the entry exposes a callable `then` whose settlement outcome is `o`,
and `plainVal` is the entry itself as recorded verbatim when it is treated
as a plain value. -/
structure HEntry (α ε : Type) where
  truthy : Bool
  thenOutcome : Option (Except ε α)
  plainVal : α
deriving DecidableEq

/-- The duck-typing test of hash line 97: the entry is awaited as a future
exactly when it is truthy and exposes a callable `then`. -/
def isAwaited {α ε : Type} (e : HEntry α ε) : Bool :=
  e.truthy && e.thenOutcome.isSome

/-- The mutable state of one `hash` invocation: the `results` accumulator
(an association list in recording order), the `remaining` counter, and the
state of the returned promise (`none` while pending; a promise settles at
most once, later settlement attempts are no-ops). -/
structure HState (α ε : Type) where
  results : List (String × α)
  remaining : Nat
  settled : Option (Except ε (List (String × α)))
deriving DecidableEq

/-- `resolveAll` of the hash source (lines 85-90): record the value under the
key, decrement `remaining`, and when it reaches zero resolve the returned
promise with the accumulated results (a no-op if it is already settled). -/
def resolveAll {α ε : Type} (k : String) (v : α) (s : HState α ε) : HState α ε :=
  let res := s.results ++ [(k, v)]
  let rem := s.remaining - 1
  ⟨res, rem,
    if rem = 0 then (if s.settled.isNone then some (.ok res) else s.settled)
    else s.settled⟩

/-- The shared failure handler of hash line 98: reject the returned promise
with the reason, a no-op if it is already settled. -/
def rejectHash {α ε : Type} (e : ε) (s : HState α ε) : HState α ε :=
  ⟨s.results, s.remaining, if s.settled.isNone then some (.error e) else s.settled⟩

/-- One iteration of the synchronous loop of hash lines 93-102: an awaited
entry only attaches handlers (its effect happens later, when it settles);
a plain entry is recorded immediately via `resolveAll`. -/
def hashSyncStep {α ε : Type} (s : HState α ε) (p : String × HEntry α ε) : HState α ε :=
  if isAwaited p.2 then s else resolveAll p.1 p.2.plainVal s

/-- The handler attached to an awaited entry, run when that entry settles:
fulfilment records the value under the captured key via `resolveAll`
(the `resolver(prop)` closure of lines 79-83), rejection calls the shared
`reject`.  An entry without a `then` outcome never fires. -/
def hashSettleStep {α ε : Type} (s : HState α ε) (p : String × HEntry α ε) : HState α ε :=
  match p.2.thenOutcome with
  | some (.ok v) => resolveAll p.1 v s
  | some (.error e) => rejectHash e s
  | none => s

/-- The awaited entries of the input, in key-enumeration order: those whose
handlers are attached by the synchronous loop. -/
def awaitedOf {α ε : Type} (entries : List (String × HEntry α ε)) :
    List (String × HEntry α ε) :=
  entries.filter fun p => isAwaited p.2

/-- The settled value carried by an awaited entry's `then` when it fulfills
(the argument the `resolver(prop)` handler receives). -/
def thenOkVal {α ε : Type} (e : HEntry α ε) : α :=
  match e.thenOutcome with
  | some (.ok v) => v
  | _ => e.plainVal

/-- The records the synchronous loop performs: one `(key, entry)` pair per
non-awaited entry, in key-enumeration order. -/
def plainPairs {α ε : Type} (entries : List (String × HEntry α ε)) :
    List (String × α) :=
  (entries.filter fun p => !isAwaited p.2).map fun p => (p.1, p.2.plainVal)

/-- The records the settlement phase performs when every awaited entry
fulfills: one pair per settlement, in settlement order. -/
def okPairs {α ε : Type} (σ : List (String × HEntry α ε)) : List (String × α) :=
  σ.map fun q => (q.1, thenOkVal q.2)

/-- A single record, as both phases perform it: `resolveAll` on a concrete
key/value pair. -/
def recordStep {α ε : Type} (s : HState α ε) (p : String × α) : HState α ε :=
  resolveAll p.1 p.2 s

/-- The full `hash` run (hash source lines 66-104): if there are no keys the
promise resolves immediately with an empty mapping; otherwise the synchronous
loop over the entries runs first, and then the awaited entries' handlers fire
in the settlement order `σ`.  The result is the returned promise's state at
the end: `none` if it never settled, otherwise its settlement outcome. -/
def runHash {α ε : Type} (entries : List (String × HEntry α ε))
    (σ : List (String × HEntry α ε)) :
    Option (Except ε (List (String × α))) :=
  if entries.length = 0 then some (.ok [])
  else (σ.foldl hashSettleStep
          (entries.foldl hashSyncStep ⟨[], entries.length, none⟩)).settled

/-- The value the contract associates with key `k`: the settled value of an
awaited entry, the entry itself for a plain one, `none` for an absent key. -/
def expectedVal {α ε : Type} (entries : List (String × HEntry α ε)) (k : String) :
    Option α :=
  (entries.find? fun p => p.1 = k).map fun p =>
    if isAwaited p.2 then thenOkVal p.2 else p.2.plainVal

/-- What a call of `rethrow`'s body does synchronously: either return a value
normally or throw a reason. -/
inductive SyncOutcome (ρ α : Type) where
  | returns : α → SyncOutcome ρ α
  | throws : ρ → SyncOutcome ρ α
deriving DecidableEq

/-- `rethrow` (rethrow.js lines 43-48): schedule a task on the ambient queue
that will throw the reason on the next turn, and throw the same reason
synchronously.  The first component is the list of reasons scheduled to be
raised as unhandled errors on the next turn of the event loop; the second is
the synchronous outcome of the call. -/
def rethrow {ρ : Type} (reason : ρ) : List ρ × SyncOutcome ρ Unit :=
  ([reason], .throws reason)

/-- Attaching a handler as a rejection handler on a future chain: if the
handler throws, the following continuation's future rejects with the thrown
reason; if it returns, the future fulfills with the returned value.  The
scheduled ambient tasks are passed through. -/
def handleRejection {ρ α : Type} (handler : ρ → List ρ × SyncOutcome ρ α)
    (reason : ρ) : List ρ × Except ρ α :=
  let r := handler reason
  (r.1,
    match r.2 with
    | .returns v => .ok v
    | .throws e => .error e)

/-! ## Helper lemmas -/

/-- Joining a list of already-fulfilled outcomes yields the list of values. -/
theorem allJoin_map_ok {α ε : Type} (S : List α) :
    allJoin (S.map (Except.ok : α → Except ε α)) = .ok S := by
  induction S with
  | nil => rfl
  | cons x xs ih => simp [allJoin, ih, Except.map]

/-- A join rejects with the reason of the first failing input, unchanged. -/
theorem allJoin_first_error {α ε : Type} (pre : List α) (e : ε)
    (post : List (Except ε α)) :
    allJoin (pre.map Except.ok ++ .error e :: post) = .error e := by
  induction pre with
  | nil => rfl
  | cons x xs ih => simp [allJoin, ih, Except.map]

/-- The transform loop of `map` applies a pure transform to every element in
order and never rejects. -/
theorem mapBody_pure {α β ε : Type} (f : α → β) (S : List α) :
    mapBody (fun x => (Except.ok (f x) : Except ε β)) S = (.ok (S.map f), S) := by
  induction S with
  | nil => rfl
  | cons x xs ih => simp [mapBody, ih, Except.map]

/-- The transform loop of `map` stops at the first throwing call: the result
is that throw's reason and the transform was applied to exactly the prefix up
to and including the throwing element. -/
theorem mapBody_throw {α β ε : Type} (f : α → Except ε β) (pre : List α) (x : α)
    (post : List α) (e : ε) (hpre : ∀ y ∈ pre, ∃ b, f y = Except.ok b)
    (hx : f x = Except.error e) :
    mapBody f (pre ++ x :: post) = (.error e, pre ++ [x]) := by
  induction pre with
  | nil => simp [mapBody, hx]
  | cons y ys ih =>
      obtain ⟨b, hb⟩ := hpre y (by simp)
      simp [mapBody, hb, ih fun z hz => hpre z (by simp [hz]), Except.map]

/-! ## Claim theorems -/

/-- C1: for a two-item sequence `[a, b]` whose predicate returns a future for
every item, with the future for `a` fulfilling truthily and the future for `b`
fulfilling falsily, `filter` fulfills with `[a]` only (the final working array
is `[a]` raw), the algorithm runs exactly 2 passes, i.e. recurses internally
exactly once, and the predicate invocation log is `[a, b]`: exactly one call
per original item, all in the first pass, none on the recursive pass. -/
theorem filter_two_async_predicate_futures {α ε : Type} (a b : α)
    (pred : α → PredRes ε)
    (ha : pred a = .promise (.ok true)) (hb : pred b = .promise (.ok false)) :
    filterLoop pred 2 [PElem.item a, PElem.item b]
      = some (.ok ([PElem.item a], [a, b], 2)) ∧
    itemValues ([PElem.item a] : List (PElem α ε)) = [a] := by
  constructor
  · simp [filterLoop, joinElems, filterPass, ha, hb, Except.map]
  · simp [itemValues]

/-- Witness for C1 at a concrete input. -/
theorem filter_two_async_predicate_futures_witness :
    filterLoop
        (fun x : Nat =>
          if x = 0 then PredRes.promise (Except.ok true)
          else (PredRes.promise (Except.ok false) : PredRes Unit))
        2 [PElem.item 0, PElem.item 1]
      = some (.ok ([PElem.item 0], [0, 1], 2)) ∧
    itemValues ([PElem.item 0] : List (PElem Nat Unit)) = [0] :=
  filter_two_async_predicate_futures 0 1 _ (by simp) (by simp)

/-- C5: for every non-empty sequence `S` of plain values and pure transform
`f`, `map(S, f)` fulfills with `R` of the same length with `R[i] = f(S[i])`
for every index, and the transform application log is exactly `S`: one call
per item, in ascending index order. -/
theorem map_pure_transform_pointwise {α β ε : Type} (S : List α) (f : α → β)
    (_hS : S ≠ []) :
    rsvpMap (S.map (Except.ok : α → Except ε α)) (fun x => Except.ok (f x))
      = (.ok (S.map f), S) ∧
    (S.map f).length = S.length ∧
    ∀ (i : Nat) (h1 : i < (S.map f).length) (h2 : i < S.length),
      (S.map f).get ⟨i, h1⟩ = f (S.get ⟨i, h2⟩) := by
  refine ⟨?_, by simp, ?_⟩
  · simp [rsvpMap, allJoin_map_ok, mapBody_pure]
  · intro i h1 h2
    simp [List.get_eq_getElem, List.getElem_map]

/-- Witness for C5 at a concrete input. -/
theorem map_pure_transform_pointwise_witness :
    rsvpMap (([1, 2, 3] : List Nat).map (Except.ok : Nat → Except Unit Nat))
        (fun x => Except.ok (x + 10))
      = (.ok [11, 12, 13], [1, 2, 3]) ∧
    (([1, 2, 3] : List Nat).map (fun x => x + 10)).length
      = ([1, 2, 3] : List Nat).length := by
  have h := map_pure_transform_pointwise ([1, 2, 3] : List Nat) (fun x => x + 10)
    (ε := Unit) (by simp)
  exact ⟨by simpa using h.1, h.2.1⟩

/-- C6: `map` and `filter` each raise their invalid-argument `TypeError`
synchronously when the first argument is not an array or the second is not
callable: the result is on the synchronous-throw channel (`.error`), so no
future is created or rejected. -/
theorem map_filter_validate_synchronously {α β ε α2 ε2 : Type} :
    (∀ (p : JSArr ε α) (f : JSFn α (Except ε β)),
        p = JSArr.notArray ∨ f = JSFn.notFunction →
        ∃ m, mapJS p f = .error m) ∧
    (∀ (q : JSArr ε2 α2) (g : JSFn α2 (PredRes ε2)) (fuel : Nat),
        q = JSArr.notArray ∨ g = JSFn.notFunction →
        ∃ m, filterJS q g fuel = .error m) := by
  constructor
  · rintro p f (rfl | rfl)
    · exact ⟨_, rfl⟩
    · cases p
      · exact ⟨_, rfl⟩
      · exact ⟨_, rfl⟩
  · rintro q g fuel (rfl | rfl)
    · exact ⟨_, rfl⟩
    · cases q
      · exact ⟨_, rfl⟩
      · exact ⟨_, rfl⟩

/-- Witness for C6 at concrete invalid arguments. -/
theorem map_filter_validate_synchronously_witness :
    (∃ m, mapJS (JSArr.notArray : JSArr Unit Nat)
        (JSFn.notFunction : JSFn Nat (Except Unit Nat)) = .error m) ∧
    (∃ m, filterJS (JSArr.arr [Except.ok 4] : JSArr Unit Nat)
        (JSFn.notFunction : JSFn Nat (PredRes Unit)) 2 = .error m) :=
  ⟨(@map_filter_validate_synchronously Nat Nat Unit Nat Unit).1 _ _ (Or.inl rfl),
   (@map_filter_validate_synchronously Nat Nat Unit Nat Unit).2 _ _ 2 (Or.inr rfl)⟩

/-- C7: with valid arguments, a transform that throws on some settled value
makes `map`'s returned future reject with exactly that thrown reason; the
rejection is on the future channel (the synchronous channel of `mapJS` is
`.ok`), and the transform stops at the throwing element. -/
theorem map_transform_throw_rejects {α β ε : Type} (pre : List α) (x : α)
    (post : List α) (f : α → Except ε β) (e : ε)
    (hpre : ∀ y ∈ pre, ∃ b, f y = Except.ok b) (hx : f x = Except.error e) :
    rsvpMap ((pre ++ x :: post).map Except.ok) f = (.error e, pre ++ [x]) ∧
    mapJS (JSArr.arr ((pre ++ x :: post).map Except.ok)) (JSFn.fn f)
      = .ok (.error e, pre ++ [x]) := by
  have h1 : rsvpMap ((pre ++ x :: post).map Except.ok) f
      = (.error e, pre ++ [x]) := by
    unfold rsvpMap
    rw [allJoin_map_ok]
    exact mapBody_throw f pre x post e hpre hx
  refine ⟨h1, ?_⟩
  show Except.ok (rsvpMap ((pre ++ x :: post).map Except.ok) f)
    = .ok (.error e, pre ++ [x])
  rw [h1]

/-- Witness for C7 at a concrete input. -/
theorem map_transform_throw_rejects_witness :
    rsvpMap (([1] ++ 2 :: [3]).map Except.ok)
        (fun v : Nat => if v = 2 then Except.error "kaboom" else Except.ok v)
      = (.error "kaboom", [1] ++ [2]) ∧
    mapJS (JSArr.arr (([1] ++ 2 :: [3]).map Except.ok))
        (JSFn.fn fun v : Nat => if v = 2 then Except.error "kaboom" else Except.ok v)
      = .ok (.error "kaboom", [1] ++ [2]) :=
  map_transform_throw_rejects [1] 2 [3] _ "kaboom"
    (by intro y hy; simp at hy; subst hy; exact ⟨1, rfl⟩) (by simp)

/-- C9: `rethrow` schedules the reason to be raised as an unhandled error on
the next turn of the ambient task queue, raises the same reason synchronously
(so, attached as a rejection handler, the following continuation's future
rejects with it), and never returns normally. -/
theorem rethrow_raises_and_schedules {ρ : Type} (r : ρ) :
    rethrow r = ([r], SyncOutcome.throws r) ∧
    handleRejection rethrow r = ([r], Except.error r) ∧
    ∀ a : Unit, (rethrow r).2 ≠ SyncOutcome.returns a := by
  refine ⟨rfl, rfl, fun a h => ?_⟩
  simp [rethrow] at h

/-- Witness for C9 at a concrete reason. -/
theorem rethrow_raises_and_schedules_witness :
    rethrow "boom" = (["boom"], SyncOutcome.throws "boom") ∧
    handleRejection rethrow "boom" = (["boom"], Except.error "boom") :=
  ⟨(rethrow_raises_and_schedules "boom").1,
   (rethrow_raises_and_schedules "boom").2.1⟩

/-- C10: a falsy entry is recorded verbatim as a plain value whatever its
`then` property holds (the `promise && isFunction(promise.then)` check
short-circuits), a truthy entry without a callable `then` is also recorded
verbatim, and a truthy entry with a callable `then` — any thenable — is
awaited: the settled value, not the entry, is recorded. -/
theorem hash_duck_typed_await_choice {α ε : Type} :
    (∀ (k : String) (e : HEntry α ε), e.truthy = false →
        runHash [(k, e)] [] = some (.ok [(k, e.plainVal)])) ∧
    (∀ (k : String) (e : HEntry α ε), e.thenOutcome = none →
        runHash [(k, e)] [] = some (.ok [(k, e.plainVal)])) ∧
    (∀ (k : String) (e : HEntry α ε) (v : α), e.truthy = true →
        e.thenOutcome = some (.ok v) →
        runHash [(k, e)] [(k, e)] = some (.ok [(k, v)])) ∧
    (∀ e : HEntry α ε, isAwaited e = (e.truthy && e.thenOutcome.isSome)) := by
  refine ⟨?_, ?_, ?_, fun e => rfl⟩
  · intro k e h
    simp [runHash, hashSyncStep, isAwaited, h, resolveAll]
  · intro k e h
    simp [runHash, hashSyncStep, isAwaited, h, resolveAll]
  · intro k e v ht ho
    simp [runHash, hashSyncStep, hashSettleStep, isAwaited, ht, ho, resolveAll]

/-- Witness for C10: a falsy entry carrying a callable `then` is still
recorded verbatim, and a truthy thenable is awaited. -/
theorem hash_duck_typed_await_choice_witness :
    runHash [("k", (⟨false, some (.ok 9), 5⟩ : HEntry Nat Unit))] []
      = some (.ok [("k", 5)]) ∧
    runHash [("k", (⟨true, some (.ok 9), 5⟩ : HEntry Nat Unit))]
        [("k", ⟨true, some (.ok 9), 5⟩)]
      = some (.ok [("k", 9)]) :=
  ⟨hash_duck_typed_await_choice.1 "k" _ rfl,
   hash_duck_typed_await_choice.2.2.1 "k" _ 9 rfl rfl⟩

/-- Joining a working array of raw values alone resolves to the same values. -/
theorem joinElems_map_item {α ε : Type} (xs : List α) :
    joinElems (xs.map (PElem.item : α → PElem α ε)) = .ok (xs.map RElem.item) := by
  induction xs with
  | nil => rfl
  | cons x t ih => simp [joinElems, ih, Except.map]

/-- On a pass whose input holds no markers, every raw value the pass keeps
had its predicate return plain `true`. -/
theorem filterPass_item_output {α ε : Type} (pred : α → PredRes ε)
    (rs : List (RElem α)) (hall : ∀ e ∈ rs, ∃ v, e = RElem.item v) :
    ∀ v, PElem.item v ∈ (filterPass pred rs).1 → pred v = .plain true := by
  induction rs with
  | nil => simp [filterPass]
  | cons e t ih =>
      obtain ⟨w, rfl⟩ := hall e (List.mem_cons_self e t)
      have ht := fun x hx => hall x (List.mem_cons_of_mem _ hx)
      intro v hv
      cases hpred : pred w with
      | plain b =>
          cases b
          · simp [filterPass, hpred] at hv
            exact ih ht v hv
          · simp [filterPass, hpred] at hv
            rcases hv with h1 | hv
            · rw [h1]; exact hpred
            · exact ih ht v hv
      | promise o =>
          simp [filterPass, hpred] at hv
          exact ih ht v hv

/-- Raw values survive the join of a working array: every raw value of the
joined result was a raw value of the array. -/
theorem joinElems_ok_items {α ε : Type} (es : List (PElem α ε))
    (rs : List (RElem α)) (h : joinElems es = .ok rs) :
    ∀ v, RElem.item v ∈ rs → PElem.item v ∈ es := by
  induction es generalizing rs with
  | nil =>
      simp [joinElems] at h
      subst h
      simp
  | cons e t ih =>
      cases e with
      | item w =>
          cases hj : joinElems t with
          | error e2 => simp [joinElems, hj, Except.map] at h
          | ok rs2 =>
              simp [joinElems, hj, Except.map] at h
              subst h
              intro v hv
              rcases List.mem_cons.mp hv with h1 | hv
              · rw [RElem.item.injEq] at h1
                subst h1
                exact List.mem_cons_self _ _
              · exact List.mem_cons_of_mem _ (ih rs2 hj v hv)
      | pending w o =>
          cases o with
          | error e2 => simp [joinElems] at h
          | ok b =>
              cases hj : joinElems t with
              | error e2 => simp [joinElems, hj, Except.map] at h
              | ok rs2 =>
                  simp [joinElems, hj, Except.map] at h
                  subst h
                  intro v hv
                  rcases List.mem_cons.mp hv with h1 | hv
                  · cases h1
                  · exact List.mem_cons_of_mem _ (ih rs2 hj v hv)

/-- If every raw value of a pass input has a plain-`true` predicate, the pass
creates no predicate promise: markers contribute none, and no predicate call
returns a thenable. -/
theorem filterPass_no_promise {α ε : Type} (pred : α → PredRes ε)
    (rs : List (RElem α))
    (h : ∀ v, RElem.item v ∈ rs → pred v = .plain true) :
    (filterPass pred rs).2.1 = false := by
  induction rs with
  | nil => rfl
  | cons e t ih =>
      cases e with
      | marker w b =>
          have := ih fun v hv => h v (List.mem_cons_of_mem _ hv)
          simpa [filterPass] using this
      | item w =>
          have hw := h w (List.mem_cons_self _ _)
          have := ih fun v hv => h v (List.mem_cons_of_mem _ hv)
          simpa [filterPass, hw] using this

/-- A pass that sets no `hasPromises` flag emitted only raw values. -/
theorem filterPass_all_raw {α ε : Type} (pred : α → PredRes ε)
    (rs : List (RElem α)) (h : (filterPass pred rs).2.1 = false) :
    (filterPass pred rs).1.all isRawItem = true := by
  induction rs with
  | nil => rfl
  | cons e t ih =>
      cases e with
      | marker w b =>
          simp only [filterPass] at h ⊢
          cases b
          · exact ih h
          · simpa [isRawItem] using ih h
      | item w =>
          cases hw : pred w with
          | plain b =>
              simp only [filterPass, hw] at h ⊢
              cases b
              · exact ih h
              · simpa [isRawItem] using ih h
          | promise o => simp [filterPass, hw] at h

/-- A pass whose input is markers only invokes the predicate on nothing,
creates no new marker, and emits only raw values. -/
theorem filterPass_markers_only {α ε : Type} (pred : α → PredRes ε)
    (rs : List (RElem α)) (h : ∀ e ∈ rs, ∃ v b, e = RElem.marker v b) :
    (filterPass pred rs).2.1 = false ∧ (filterPass pred rs).2.2 = [] ∧
    (filterPass pred rs).1.all isRawItem = true := by
  induction rs with
  | nil => exact ⟨rfl, rfl, rfl⟩
  | cons e t ih =>
      obtain ⟨w, b, rfl⟩ := h e (List.mem_cons_self e t)
      have ht := ih fun x hx => h x (List.mem_cons_of_mem _ hx)
      cases b
      · simpa [filterPass] using ht
      · simpa [filterPass, isRawItem] using ht

/-- C2: the recursive re-invocation of `filter` terminates: from any input
sequence the loop completes within two passes (one recursive re-invocation)
for every predicate, because a marker is handled by the marker branch without
invoking the predicate — a markers-only pass logs no predicate call, raises
no `hasPromises` flag, and leaves no marker behind. -/
theorem filter_recursion_terminates {α ε : Type} (pred : α → PredRes ε)
    (xs : List α) :
    (filterLoop pred 2 (xs.map PElem.item)).isSome = true ∧
    (∀ rs : List (RElem α), (∀ e ∈ rs, ∃ v b, e = RElem.marker v b) →
        (filterPass pred rs).2.1 = false ∧ (filterPass pred rs).2.2 = [] ∧
        (filterPass pred rs).1.all isRawItem = true) := by
  refine ⟨?_, fun rs h => filterPass_markers_only pred rs h⟩
  have hall : ∀ e ∈ xs.map (RElem.item : α → RElem α), ∃ v, e = RElem.item v := by
    intro e he
    rcases List.mem_map.mp he with ⟨v, _, rfl⟩
    exact ⟨v, rfl⟩
  cases hp1 : (filterPass pred (xs.map RElem.item)).2.1 with
  | false => simp [filterLoop, joinElems_map_item, hp1]
  | true =>
      cases hj2 : joinElems (filterPass pred (xs.map RElem.item)).1 with
      | error e => simp [filterLoop, joinElems_map_item, hp1, hj2]
      | ok rs2 =>
          have hitems : ∀ v, RElem.item v ∈ rs2 → pred v = .plain true := by
            intro v hv
            exact filterPass_item_output pred (xs.map RElem.item) hall v
              (joinElems_ok_items _ rs2 hj2 v hv)
          have hp2 := filterPass_no_promise pred rs2 hitems
          simp [filterLoop, joinElems_map_item, hp1, hj2, hp2]

/-- Witness for C2 at a concrete predicate and input. -/
theorem filter_recursion_terminates_witness :
    (filterLoop
        (fun x : Nat =>
          if x = 0 then PredRes.promise (Except.ok true)
          else (PredRes.plain true : PredRes Unit))
        2 (([0, 1] : List Nat).map PElem.item)).isSome = true ∧
    (filterPass
        (fun x : Nat =>
          if x = 0 then PredRes.promise (Except.ok true)
          else (PredRes.plain true : PredRes Unit))
        [RElem.marker 7 true]).2.1 = false := by
  have h := filter_recursion_terminates
    (fun x : Nat =>
      if x = 0 then PredRes.promise (Except.ok true)
      else (PredRes.plain true : PredRes Unit)) [0, 1]
  refine ⟨h.1, ?_⟩
  have h2 := h.2 [RElem.marker 7 true] (by
    intro e he
    simp at he
    exact ⟨7, true, he⟩)
  exact h2.1

/-- C8: whenever the filter loop fulfills, the final array it fulfills with
holds no `FilterResult` marker: every element is a raw kept value. -/
theorem filter_final_array_marker_free {α ε : Type} (pred : α → PredRes ε)
    (fuel : Nat) (es fin : List (PElem α ε)) (log : List α) (n : Nat)
    (h : filterLoop pred fuel es = some (.ok (fin, log, n))) :
    fin.all isRawItem = true := by
  induction fuel generalizing es fin log n with
  | zero => simp [filterLoop] at h
  | succ fuel ih =>
      cases hj : joinElems es with
      | error e => simp [filterLoop, hj] at h
      | ok rs =>
          cases hp : (filterPass pred rs).2.1 with
          | false =>
              simp [filterLoop, hj, hp] at h
              rw [← h.1]
              exact filterPass_all_raw pred rs hp
          | true =>
              cases hrec : filterLoop pred fuel (filterPass pred rs).1 with
              | none => simp [filterLoop, hj, hp, hrec] at h
              | some r2 =>
                  cases r2 with
                  | error e => simp [filterLoop, hj, hp, hrec] at h
                  | ok fin2 =>
                      obtain ⟨f2, l2, n2⟩ := fin2
                      have hall := ih (filterPass pred rs).1 f2 l2 n2 hrec
                      simp [filterLoop, hj, hp, hrec] at h
                      rw [← h.1]
                      exact hall

/-- Witness for C8 at a concrete run. -/
theorem filter_final_array_marker_free_witness :
    (([PElem.item 2, PElem.item 3] : List (PElem Nat Unit)).all isRawItem)
      = true :=
  filter_final_array_marker_free
    (fun x : Nat => (PredRes.plain (decide (x > 1)) : PredRes Unit)) 2
    [PElem.item 1, PElem.item 2, PElem.item 3] [PElem.item 2, PElem.item 3]
    [1, 2, 3] 1 (by decide)

/-- An awaited head contributes no synchronous record. -/
theorem plainPairs_cons_awaited {α ε : Type} (p : String × HEntry α ε)
    (t : List (String × HEntry α ε)) (h : isAwaited p.2 = true) :
    plainPairs (p :: t) = plainPairs t := by
  simp [plainPairs, List.filter_cons, h]

/-- A plain head is recorded first, verbatim. -/
theorem plainPairs_cons_plain {α ε : Type} (p : String × HEntry α ε)
    (t : List (String × HEntry α ε)) (h : isAwaited p.2 = false) :
    plainPairs (p :: t) = (p.1, p.2.plainVal) :: plainPairs t := by
  simp [plainPairs, List.filter_cons, h]

/-- Settlement records unfold one per settlement. -/
theorem okPairs_cons {α ε : Type} (q : String × HEntry α ε)
    (t : List (String × HEntry α ε)) :
    okPairs (q :: t) = (q.1, thenOkVal q.2) :: okPairs t := rfl

/-- The synchronous loop of `hash` is the fold of its records: awaited
entries only attach handlers, plain entries record immediately. -/
theorem foldl_sync_eq_record {α ε : Type} (entries : List (String × HEntry α ε))
    (s : HState α ε) :
    entries.foldl hashSyncStep s = (plainPairs entries).foldl recordStep s := by
  induction entries generalizing s with
  | nil => rfl
  | cons p t ih =>
      cases hA : isAwaited p.2 with
      | true =>
          rw [List.foldl_cons, plainPairs_cons_awaited p t hA]
          have hstep : hashSyncStep s p = s := by simp [hashSyncStep, hA]
          rw [hstep, ih]
      | false =>
          rw [List.foldl_cons, plainPairs_cons_plain p t hA, List.foldl_cons]
          have hstep : hashSyncStep s p = recordStep s (p.1, p.2.plainVal) := by
            simp [hashSyncStep, hA, recordStep]
          rw [hstep, ih]

/-- When every settling entry fulfills, the settlement phase is the fold of
its records. -/
theorem foldl_settle_eq_record {α ε : Type} (σ : List (String × HEntry α ε))
    (s : HState α ε) (hok : ∀ q ∈ σ, ∃ v, q.2.thenOutcome = some (.ok v)) :
    σ.foldl hashSettleStep s = (okPairs σ).foldl recordStep s := by
  induction σ generalizing s with
  | nil => rfl
  | cons q t ih =>
      obtain ⟨v, hv⟩ := hok q (List.mem_cons_self q t)
      rw [List.foldl_cons, okPairs_cons, List.foldl_cons]
      have hstep : hashSettleStep s q = recordStep s (q.1, thenOkVal q.2) := by
        simp [hashSettleStep, recordStep, hv, thenOkVal]
      rw [hstep, ih _ fun x hx => hok x (List.mem_cons_of_mem _ hx)]

/-- Records that do not exhaust `remaining` append to the accumulator,
decrement the counter, and leave the promise pending. -/
theorem recordFold_under_budget {α ε : Type} (ps : List (String × α))
    (s : HState α ε) (hs : s.settled = none) (hlen : ps.length < s.remaining) :
    ps.foldl recordStep s
      = ⟨s.results ++ ps, s.remaining - ps.length, none⟩ := by
  induction ps generalizing s with
  | nil =>
      obtain ⟨res, rem, st⟩ := s
      simp only at hs
      subst hs
      simp
  | cons p t ih =>
      obtain ⟨res, rem, st⟩ := s
      simp only at hs hlen
      subst hs
      simp only [List.length_cons] at hlen
      have hne : ¬(rem - 1 = 0) := by omega
      have hstep : recordStep (⟨res, rem, none⟩ : HState α ε) p
          = ⟨res ++ [p], rem - 1, none⟩ := by
        simp [recordStep, resolveAll, hne]
      rw [List.foldl_cons, hstep, ih _ rfl (show t.length < rem - 1 by omega)]
      have h2 : rem - 1 - t.length = rem - (t.length + 1) := by omega
      simp [h2]

/-- The record that brings `remaining` to zero resolves the promise with the
full accumulated results. -/
theorem recordFold_exact_budget {α ε : Type} (ps : List (String × α))
    (s : HState α ε) (hs : s.settled = none) (hne : ps ≠ [])
    (hlen : ps.length = s.remaining) :
    (ps.foldl recordStep s).settled = some (.ok (s.results ++ ps)) := by
  induction ps generalizing s with
  | nil => exact absurd rfl hne
  | cons p t ih =>
      obtain ⟨res, rem, st⟩ := s
      simp only at hs
      subst hs
      simp only [List.length_cons] at hlen
      cases t with
      | nil =>
          simp only [List.length_nil] at hlen
          have h1 : rem - 1 = 0 := by omega
          simp [recordStep, resolveAll, h1]
      | cons p2 t2 =>
          simp only [List.length_cons] at hlen
          have h1 : ¬(rem - 1 = 0) := by omega
          have hstep : recordStep (⟨res, rem, none⟩ : HState α ε) p
              = ⟨res ++ [p], rem - 1, none⟩ := by
            simp [recordStep, resolveAll, h1]
          rw [List.foldl_cons, hstep,
            ih _ rfl (by simp) (show (p2 :: t2).length = rem - 1 by
              simp only [List.length_cons] at hlen ⊢; omega)]
          simp

/-- Once the promise is settled, further records are observable in no result:
they no longer change the settlement. -/
theorem recordFold_settled_frozen {α ε : Type} (ps : List (String × α))
    (s : HState α ε) (x : Except ε (List (String × α))) (hx : s.settled = some x) :
    (ps.foldl recordStep s).settled = some x := by
  induction ps generalizing s with
  | nil => exact hx
  | cons p t ih =>
      refine ih _ ?_
      obtain ⟨res, rem, st⟩ := s
      simp only at hx
      subst hx
      simp [recordStep, resolveAll]

/-- Once the promise is settled, later settlements of sibling entries —
fulfilments and rejections alike — are no-ops. -/
theorem settleFold_settled_frozen {α ε : Type} (σ : List (String × HEntry α ε))
    (s : HState α ε) (x : Except ε (List (String × α))) (hx : s.settled = some x) :
    (σ.foldl hashSettleStep s).settled = some x := by
  induction σ generalizing s with
  | nil => exact hx
  | cons q t ih =>
      refine ih _ ?_
      obtain ⟨res, rem, st⟩ := s
      simp only at hx
      subst hx
      cases hq : q.2.thenOutcome with
      | none => simp [hashSettleStep, hq]
      | some o =>
          cases o with
          | ok v => simp [hashSettleStep, hq, resolveAll]
          | error e => simp [hashSettleStep, hq, rejectHash]

/-- An awaited head joins the settlement working set. -/
theorem awaitedOf_cons_awaited {α ε : Type} (p : String × HEntry α ε)
    (t : List (String × HEntry α ε)) (h : isAwaited p.2 = true) :
    awaitedOf (p :: t) = p :: awaitedOf t := by
  simp [awaitedOf, List.filter_cons, h]

/-- A plain head is not part of the settlement working set. -/
theorem awaitedOf_cons_plain {α ε : Type} (p : String × HEntry α ε)
    (t : List (String × HEntry α ε)) (h : isAwaited p.2 = false) :
    awaitedOf (p :: t) = awaitedOf t := by
  simp [awaitedOf, List.filter_cons, h]

/-- Every key of the input is recorded exactly once across the two phases. -/
theorem plain_awaited_length {α ε : Type} (entries : List (String × HEntry α ε)) :
    (plainPairs entries).length + (awaitedOf entries).length = entries.length := by
  induction entries with
  | nil => rfl
  | cons p t ih =>
      cases hA : isAwaited p.2 with
      | true =>
          rw [plainPairs_cons_awaited p t hA, awaitedOf_cons_awaited p t hA]
          simp only [List.length_cons]
          omega
      | false =>
          rw [plainPairs_cons_plain p t hA, awaitedOf_cons_plain p t hA]
          simp only [List.length_cons]
          omega

/-- When every awaited entry fulfills, `hash` fulfills with the plain records
followed by the settlement records, whatever the settlement order. -/
theorem runHash_fulfills {α ε : Type} (entries σ : List (String × HEntry α ε))
    (hperm : σ.Perm (awaitedOf entries))
    (hok : ∀ q ∈ σ, ∃ v, q.2.thenOutcome = some (.ok v)) :
    runHash entries σ = some (.ok (plainPairs entries ++ okPairs σ)) := by
  by_cases hent : entries = []
  · subst hent
    have hσ : σ = [] := hperm.eq_nil
    subst hσ
    simp [runHash, plainPairs, okPairs]
  · have hlen0 : ¬entries.length = 0 := by
      simpa [List.length_eq_zero] using hent
    have hPA := plain_awaited_length entries
    have hAσ : σ.length = (awaitedOf entries).length := hperm.length_eq
    by_cases hσ : σ = []
    · subst hσ
      simp only [List.length_nil] at hAσ
      have hP : (plainPairs entries).length = entries.length := by omega
      have hPne : plainPairs entries ≠ [] := by
        intro h
        rw [h] at hP
        exact hlen0 (by simpa using hP.symm)
      rw [runHash, if_neg hlen0, List.foldl_nil, foldl_sync_eq_record,
        recordFold_exact_budget (plainPairs entries) _ rfl hPne hP]
      simp [okPairs]
    · have hA0 : ¬σ.length = 0 := by
        simpa [List.length_eq_zero] using hσ
      have hPlt : (plainPairs entries).length < entries.length := by omega
      rw [runHash, if_neg hlen0, foldl_sync_eq_record,
        recordFold_under_budget (plainPairs entries) _ rfl hPlt,
        foldl_settle_eq_record σ _ hok,
        recordFold_exact_budget (okPairs σ) _ rfl
          (by simpa [okPairs] using hσ)
          (by simp only [okPairs, List.length_map]; omega)]
      simp [okPairs]

/-- `hash` rejects with the reason of the first rejecting settlement: once a
handler rejects, the promise is settled and every later sibling settlement is
a no-op. -/
theorem runHash_first_reject {α ε : Type} (entries pre post : List (String × HEntry α ε))
    (k : String) (he : HEntry α ε) (err : ε)
    (hperm : (pre ++ (k, he) :: post).Perm (awaitedOf entries))
    (hpre : ∀ q ∈ pre, ∀ e2 : ε, q.2.thenOutcome ≠ some (.error e2))
    (herr : he.thenOutcome = some (.error err)) :
    runHash entries (pre ++ (k, he) :: post) = some (.error err) := by
  have hawne : awaitedOf entries ≠ [] := by
    intro h
    rw [h] at hperm
    have := hperm.eq_nil
    simp at this
  have hent : entries ≠ [] := by
    intro h
    subst h
    exact hawne rfl
  have hlen0 : ¬entries.length = 0 := by
    simpa [List.length_eq_zero] using hent
  have hPA := plain_awaited_length entries
  have hAσ : (pre ++ (k, he) :: post).length = (awaitedOf entries).length :=
    hperm.length_eq
  simp only [List.length_append, List.length_cons] at hAσ
  have hpreok : ∀ q ∈ pre, ∃ v, q.2.thenOutcome = some (.ok v) := by
    intro q hq
    have hqa : q ∈ entries.filter (fun p => isAwaited p.2) :=
      hperm.mem_iff.mp (List.mem_append_left _ hq)
    have haw : isAwaited q.2 = true := (List.mem_filter.mp hqa).2
    cases hqo : q.2.thenOutcome with
    | none => rw [isAwaited, hqo] at haw; simp at haw
    | some o =>
        cases o with
        | ok v => exact ⟨v, rfl⟩
        | error e2 => exact absurd hqo (hpre q hq e2)
  have hPlt : (plainPairs entries).length < entries.length := by omega
  have hprelt : (okPairs pre).length
      < entries.length - (plainPairs entries).length := by
    simp only [okPairs, List.length_map]
    omega
  have hstep : ∀ (res : List (String × α)) (rem : Nat),
      hashSettleStep (⟨res, rem, none⟩ : HState α ε) (k, he)
        = ⟨res, rem, some (.error err)⟩ := by
    intro res rem
    simp [hashSettleStep, herr, rejectHash]
  rw [runHash, if_neg hlen0, foldl_sync_eq_record,
    recordFold_under_budget (plainPairs entries) _ rfl hPlt,
    List.foldl_append, List.foldl_cons,
    foldl_settle_eq_record pre _ hpreok,
    recordFold_under_budget (okPairs pre) _ rfl hprelt,
    hstep]
  exact settleFold_settled_frozen post _ _ rfl

/-- With unique keys, `find?` on the key locates the entry that holds it. -/
theorem find?_eq_of_mem_nodup {α ε : Type} (entries : List (String × HEntry α ε))
    (hnd : (entries.map Prod.fst).Nodup) (p : String × HEntry α ε)
    (hp : p ∈ entries) (k : String) (hk : p.1 = k) :
    entries.find? (fun q => q.1 = k) = some p := by
  induction entries with
  | nil => cases hp
  | cons q t ih =>
      simp only [List.map_cons, List.nodup_cons] at hnd
      by_cases hq : q.1 = k
      · rw [List.find?_cons_of_pos t (by simp [hq])]
        rcases List.mem_cons.mp hp with h | hpt
        · rw [h]
        · exfalso
          refine hnd.1 ?_
          have := List.mem_map_of_mem Prod.fst hpt
          rwa [hk, ← hq] at this
      · rw [List.find?_cons_of_neg t (by simp [hq])]
        rcases List.mem_cons.mp hp with h | hpt
        · exact absurd (h ▸ hk) hq
        · exact ih hnd.2 hpt

/-- The fulfilment value of `hash` associates exactly the input keys with
their contract values, independently of the settlement order. -/
theorem hash_result_mem_iff {α ε : Type} (entries σ : List (String × HEntry α ε))
    (hnd : (entries.map Prod.fst).Nodup) (hperm : σ.Perm (awaitedOf entries))
    (k : String) (v : α) :
    (k, v) ∈ plainPairs entries ++ okPairs σ ↔
      k ∈ entries.map Prod.fst ∧ expectedVal entries k = some v := by
  constructor
  · intro h
    rcases List.mem_append.mp h with h | h
    · simp only [plainPairs, List.mem_map] at h
      obtain ⟨p, hpf, hpe⟩ := h
      have hpmem := (List.mem_filter.mp hpf).1
      have hpaw : isAwaited p.2 = false := by
        simpa using (List.mem_filter.mp hpf).2
      have hk : p.1 = k := congrArg Prod.fst hpe
      have hv : p.2.plainVal = v := congrArg Prod.snd hpe
      refine ⟨hk ▸ List.mem_map_of_mem Prod.fst hpmem, ?_⟩
      rw [expectedVal, find?_eq_of_mem_nodup entries hnd p hpmem k hk]
      simp [hpaw, hv]
    · simp only [okPairs, List.mem_map] at h
      obtain ⟨q, hqσ, hqe⟩ := h
      have hqa : q ∈ entries.filter (fun p => isAwaited p.2) :=
        hperm.mem_iff.mp hqσ
      have hqmem : q ∈ entries := (List.mem_filter.mp hqa).1
      have hqaw : isAwaited q.2 = true := (List.mem_filter.mp hqa).2
      have hk : q.1 = k := congrArg Prod.fst hqe
      have hv : thenOkVal q.2 = v := congrArg Prod.snd hqe
      refine ⟨hk ▸ List.mem_map_of_mem Prod.fst hqmem, ?_⟩
      rw [expectedVal, find?_eq_of_mem_nodup entries hnd q hqmem k hk]
      simp [hqaw, hv]
  · rintro ⟨_, hexp⟩
    rw [expectedVal] at hexp
    cases hf : entries.find? (fun q => q.1 = k) with
    | none => rw [hf] at hexp; simp at hexp
    | some p =>
        rw [hf] at hexp
        simp only [Option.map_some'] at hexp
        have hpmem := List.mem_of_find?_eq_some hf
        have hpk : p.1 = k := by simpa using List.find?_some hf
        cases haw : isAwaited p.2 with
        | true =>
            rw [if_pos haw] at hexp
            have hpaw2 : p ∈ awaitedOf entries :=
              List.mem_filter.mpr ⟨hpmem, haw⟩
            have hpσ : p ∈ σ := hperm.mem_iff.mpr hpaw2
            refine List.mem_append.mpr (Or.inr ?_)
            simp only [okPairs, List.mem_map]
            exact ⟨p, hpσ, by rw [hpk, Option.some.inj hexp]⟩
        | false =>
            rw [if_neg (by simp [haw])] at hexp
            refine List.mem_append.mpr (Or.inl ?_)
            simp only [plainPairs, List.mem_map]
            refine ⟨p, List.mem_filter.mpr ⟨hpmem, by simp [haw]⟩, ?_⟩
            rw [hpk, Option.some.inj hexp]

/-- The fulfilment value of `hash` carries exactly the input's keys, as a
permutation. -/
theorem hash_result_keys_perm {α ε : Type} (entries σ : List (String × HEntry α ε))
    (hperm : σ.Perm (awaitedOf entries)) :
    ((plainPairs entries ++ okPairs σ).map Prod.fst).Perm
      (entries.map Prod.fst) := by
  rw [List.map_append]
  have h1 : (plainPairs entries).map Prod.fst
      = (entries.filter fun p => !isAwaited p.2).map Prod.fst := by
    simp [plainPairs]
  have h2 : (okPairs σ).map Prod.fst = σ.map Prod.fst := by
    simp [okPairs]
  rw [h1, h2]
  have h3 : (σ.map Prod.fst).Perm ((awaitedOf entries).map Prod.fst) :=
    hperm.map Prod.fst
  refine ((List.Perm.refl _).append h3).trans ?_
  have h4 := List.filter_append_perm (fun p : String × HEntry α ε => !isAwaited p.2)
    entries
  rw [show (fun x : String × HEntry α ε => !!isAwaited x.2)
      = fun x : String × HEntry α ε => isAwaited x.2 by funext x; simp] at h4
  simpa only [awaitedOf, List.map_append] using h4.map Prod.fst

/-- C4: for every keyed mapping with unique keys whose awaited entries all
fulfill, `hash` fulfills — under every settlement order — with a mapping
holding exactly the input's keys (as a permutation), each associated with its
contract value (`expectedVal`); the membership characterisation does not
mention the settlement order, and any two settlement orders yield
element-equal mappings; the empty mapping fulfills immediately with the empty
mapping, whatever the settlement order. -/
theorem hash_fulfills_key_isomorphic {α ε : Type} :
    (∀ (entries σ : List (String × HEntry α ε)),
        (entries.map Prod.fst).Nodup →
        σ.Perm (awaitedOf entries) →
        (∀ p ∈ entries, isAwaited p.2 = true →
          ∃ v, p.2.thenOutcome = some (.ok v)) →
        runHash entries σ = some (.ok (plainPairs entries ++ okPairs σ)) ∧
        ((plainPairs entries ++ okPairs σ).map Prod.fst).Perm
          (entries.map Prod.fst) ∧
        (∀ (k : String) (v : α), (k, v) ∈ plainPairs entries ++ okPairs σ ↔
            k ∈ entries.map Prod.fst ∧ expectedVal entries k = some v)) ∧
    (∀ (entries σ σ2 : List (String × HEntry α ε)),
        (entries.map Prod.fst).Nodup →
        σ.Perm (awaitedOf entries) → σ2.Perm (awaitedOf entries) →
        ∀ (k : String) (v : α),
          ((k, v) ∈ plainPairs entries ++ okPairs σ ↔
           (k, v) ∈ plainPairs entries ++ okPairs σ2)) ∧
    (∀ σ : List (String × HEntry α ε), runHash [] σ = some (.ok [])) := by
  refine ⟨?_, ?_, fun σ => by simp [runHash]⟩
  · intro entries σ hnd hperm hok
    have hokσ : ∀ q ∈ σ, ∃ v, q.2.thenOutcome = some (.ok v) := by
      intro q hq
      have hqa : q ∈ entries.filter (fun p => isAwaited p.2) :=
        hperm.mem_iff.mp hq
      exact hok q (List.mem_filter.mp hqa).1 (List.mem_filter.mp hqa).2
    exact ⟨runHash_fulfills entries σ hperm hokσ,
           hash_result_keys_perm entries σ hperm,
           fun k v => hash_result_mem_iff entries σ hnd hperm k v⟩
  · intro entries σ σ2 hnd hp1 hp2 k v
    rw [hash_result_mem_iff entries σ hnd hp1 k v,
        hash_result_mem_iff entries σ2 hnd hp2 k v]

/-- Witness for C4 at a concrete mapping with one future and one plain
value. -/
theorem hash_fulfills_key_isomorphic_witness :
    runHash [("a", (⟨true, some (.ok 7), 0⟩ : HEntry Nat String)),
             ("b", ⟨true, none, 2⟩)]
        [("a", ⟨true, some (.ok 7), 0⟩)]
      = some (.ok (plainPairs [("a", (⟨true, some (.ok 7), 0⟩ : HEntry Nat String)),
                               ("b", ⟨true, none, 2⟩)]
                   ++ okPairs [("a", (⟨true, some (.ok 7), 0⟩ : HEntry Nat String))])) ∧
    plainPairs [("a", (⟨true, some (.ok 7), 0⟩ : HEntry Nat String)),
                ("b", ⟨true, none, 2⟩)]
      ++ okPairs [("a", (⟨true, some (.ok 7), 0⟩ : HEntry Nat String))]
      = [("b", 2), ("a", 7)] ∧
    runHash ([] : List (String × HEntry Nat String)) [] = some (.ok []) := by
  have h := (@hash_fulfills_key_isomorphic Nat String).1
    [("a", ⟨true, some (.ok 7), 0⟩), ("b", ⟨true, none, 2⟩)]
    [("a", ⟨true, some (.ok 7), 0⟩)]
    (by decide) (by decide)
    (by
      intro p hp haw
      simp only [List.mem_cons, List.mem_singleton] at hp
      rcases hp with rfl | rfl | h0
      · exact ⟨7, rfl⟩
      · simp [isAwaited] at haw
      · cases h0)
  exact ⟨h.1, by decide, (@hash_fulfills_key_isomorphic Nat String).2.2 []⟩

/-- C3: across the combinators, a failing entry rejects the returned future
with exactly its reason, unchanged: `hash` rejects with the first rejecting
settlement's reason and later sibling settlements are frozen out; `map` and
`filter` pass the join's first-failure reason through (the transform is never
invoked); a rejected predicate future rejects `filter` with its reason via
the `FilterResult` promise. -/
theorem first_failure_reason_verbatim {α β ε : Type} :
    (∀ (entries pre post : List (String × HEntry α ε)) (k : String)
        (he : HEntry α ε) (err : ε),
        (pre ++ (k, he) :: post).Perm (awaitedOf entries) →
        (∀ q ∈ pre, ∀ e2 : ε, q.2.thenOutcome ≠ some (.error e2)) →
        he.thenOutcome = some (.error err) →
        runHash entries (pre ++ (k, he) :: post) = some (.error err)) ∧
    (∀ (pre : List α) (err : ε) (post : List (Except ε α)) (f : α → Except ε β),
        rsvpMap (pre.map Except.ok ++ .error err :: post) f = (.error err, [])) ∧
    (∀ (pre : List α) (err : ε) (post : List (Except ε α))
        (pred : α → PredRes ε) (fuel : Nat),
        rsvpFilter (pre.map Except.ok ++ .error err :: post) pred fuel
          = some (.error err)) ∧
    (∀ (a b : α) (pred : α → PredRes ε) (err : ε),
        pred a = .promise (.ok true) → pred b = .promise (.error err) →
        filterLoop pred 2 [PElem.item a, PElem.item b] = some (.error err)) := by
  refine ⟨fun entries pre post k he err h1 h2 h3 =>
      runHash_first_reject entries pre post k he err h1 h2 h3, ?_, ?_, ?_⟩
  · intro pre err post f
    simp [rsvpMap, allJoin_first_error]
  · intro pre err post pred fuel
    simp [rsvpFilter, allJoin_first_error]
  · intro a b pred err ha hb
    simp [filterLoop, joinElems, filterPass, ha, hb, Except.map]

/-- Witness for C3 at concrete rejecting inputs. -/
theorem first_failure_reason_verbatim_witness :
    runHash [("a", (⟨true, none, 2⟩ : HEntry Nat String)),
             ("b", ⟨true, some (.error "boom"), 0⟩)]
        [("b", ⟨true, some (.error "boom"), 0⟩)] = some (.error "boom") ∧
    rsvpMap (([1] : List Nat).map Except.ok ++ .error "boom" :: [Except.ok 9])
        (fun x => (Except.ok (x + 1) : Except String Nat)) = (.error "boom", []) ∧
    rsvpFilter (([1] : List Nat).map Except.ok ++ .error "boom" :: [Except.ok 9])
        (fun _ => PredRes.plain true) 5 = some (.error "boom") ∧
    filterLoop
        (fun x : Nat =>
          if x = 0 then PredRes.promise (Except.ok true)
          else PredRes.promise (Except.error "boom"))
        2 [PElem.item 0, PElem.item 1] = some (.error "boom") :=
  ⟨(@first_failure_reason_verbatim Nat Nat String).1 _ [] [] "b" _ "boom"
      (by decide) (by simp) rfl,
   (@first_failure_reason_verbatim Nat Nat String).2.1 [1] "boom" [Except.ok 9] _,
   (@first_failure_reason_verbatim Nat Nat String).2.2.1 [1] "boom"
      [Except.ok 9] _ 5,
   (@first_failure_reason_verbatim Nat Nat String).2.2.2 0 1 _ "boom"
      (by simp) (by simp)⟩

end RSVP
